import Mathlib

/-!
Verification of the context-compression subsystem: a shallow embedding of the
chunking helper (utils/chunking.py), the shared strategy base
(core/strategies/base.py) and the three compression strategies
(chunk_filtering.py, fact_centric.py, summarization.py), together with proofs
of the spec's testable properties.

Python strings are modelled as lists of characters, Python dicts as
insertion-ordered association lists, and the two external collaborators — the
sentence tokenizer and the completion service — as explicit parameters
(a tokenizing function, and the already-parsed response payload), since both
live outside this repository.
-/

namespace ContextCompress

/-! ## The embedded program -/

/-- Python `str`, modelled as a list of characters. -/
abbrev PyStr := List Char

/-- Python's whitespace test used by `str.strip` (space, tab, newline,
carriage return, vertical tab, form feed). -/
def pySpace (c : Char) : Bool :=
  c.toNat = 32 || c.toNat = 9 || c.toNat = 10 || c.toNat = 13 || c.toNat = 11 || c.toNat = 12

/-- Python `s.strip()`: remove leading and trailing whitespace. -/
def pyStrip (s : PyStr) : PyStr :=
  ((s.dropWhile pySpace).reverse.dropWhile pySpace).reverse

/-- Python `sep.join(xs)`. -/
def pyJoin (sep : PyStr) : List PyStr → PyStr
  | [] => []
  | [x] => x
  | x :: y :: ys => x ++ sep ++ pyJoin sep (y :: ys)

/-- The newline separator used when sealing a chunk. -/
def nlSep : PyStr := ['\n']

/-- The loop of `merge_segments` (utils/chunking.py).  The source keeps the
open chunk as a Python list `current` of already-stripped pieces together with
`current_len`, and seals it with a newline join; the embedding keeps the open
chunk as its list of pieces and returns the sealed chunks as piece lists, to be
joined by `merge_segments` below.  Each iteration strips the segment, skips it
when blank, otherwise either appends it to the open chunk or seals the open
chunk and starts a new one, exactly as the source loop does. -/
def mergeLoop (char_limit : Nat) : List PyStr → List PyStr → Nat → List (List PyStr)
  | [], current, _ => if current = [] then [] else [current]
  | raw_segment :: rest, current, current_len =>
    let piece := pyStrip raw_segment
    if piece = [] then
      mergeLoop char_limit rest current current_len
    else
      let prospective := if current = [] then piece.length else current_len + 1 + piece.length
      if current ≠ [] ∧ prospective > char_limit then
        current :: mergeLoop char_limit rest [piece] piece.length
      else
        mergeLoop char_limit rest (current ++ [piece]) prospective

/-- Function `merge_segments(segments, char_limit)` from utils/chunking.py: accumulate
stripped segments into chunks, sealing each chunk with a newline join. -/
def merge_segments (segments : List PyStr) (char_limit : Nat) : List PyStr :=
  (mergeLoop char_limit segments [] 0).map (pyJoin nlSep)

/-- Constant `CHAR_LIMIT` from utils/chunking.py. -/
def CHAR_LIMIT : Nat := 500

/-- Function `chunk_documents(text)` from utils/chunking.py.  The nltk sentence
tokenizer is an external library service, passed here as the function
argument `tok`. -/
def chunk_documents (tok : PyStr → List PyStr) (text : PyStr) : List PyStr :=
  merge_segments (tok text) CHAR_LIMIT

/-- The stripped forms of the non-blank input segments, in input order:
what the chunking loop actually keeps. -/
def nonBlankPieces (segments : List PyStr) : List PyStr :=
  segments.filterMap (fun s => if pyStrip s = [] then none else some (pyStrip s))

/-- The open-chunk invariant of the merge loop: either the open chunk is
empty, or `current_len` is the length of its sealed form and the open chunk is
already within the limit or a lone oversized piece. -/
def GoodOpen (char_limit : Nat) (current : List PyStr) (current_len : Nat) : Prop :=
  current = [] ∨
    (current_len = (pyJoin nlSep current).length ∧
      (current_len ≤ char_limit ∨ current.length = 1))

/-- Decimal digit character of a value below ten. -/
def digitChar (n : Nat) : Char := Char.ofNat (48 + n)

/-- Decimal rendering of a natural number, as Python `str(n)` renders the
chunk index; recursion on a fuel bound for the digit count. -/
def natDecAux : Nat → Nat → PyStr
  | 0, _ => []
  | fuel + 1, n =>
    if n < 10 then [digitChar n] else natDecAux fuel (n / 10) ++ [digitChar (n % 10)]

/-- Python `str(n)` for a natural number. -/
def natDec (n : Nat) : PyStr := natDecAux (n + 1) n

/-- Decimal digit test on characters. -/
def isDigitChar (c : Char) : Bool := 48 ≤ c.toNat && c.toNat ≤ 57

/-- Value of a digit string read left to right. -/
def digitsVal (cs : PyStr) : Nat := cs.foldl (fun a c => a * 10 + (c.toNat - 48)) 0

/-- Digit-run parser: the digits part of Python `int(s)` — a non-empty
all-digit string and its value. -/
def parseDigits? (cs : PyStr) : Option Nat :=
  if cs ≠ [] ∧ cs.all isDigitChar then some (digitsVal cs) else none

/-- Lowercase hex digit character. -/
def hexDigit (n : Nat) : Char :=
  if n < 10 then Char.ofNat (48 + n) else Char.ofNat (87 + n)

/-- Fixed-width big-endian hex rendering. -/
def hexRender : Nat → Nat → PyStr
  | 0, _ => []
  | w + 1, n => hexRender w (n / 16) ++ [hexDigit (n % 16)]

/-- The truncated url digest `hashlib.md5(url.encode()).hexdigest()[:8]` of
`_generate_chunk_id` (core/strategies/base.py).  `hashlib.md5` is an external
library primitive, not code of this repository; it is modelled as a
deterministic eight-hex-character digest of the url (a 32-bit FNV-style fold
rendered in hex).  Every property proved below depends only on the digest
being a fixed function of the url alone with an output of this shape. -/
def urlHash8 (url : PyStr) : PyStr :=
  hexRender 8 (url.foldl (fun h c => (h * 16777619 + c.toNat) % 4294967296) 2166136261)

/-- Function `_generate_chunk_id(url, index)` from core/strategies/base.py: the
truncated url digest, a dash, and the decimal index. -/
def generate_chunk_id (url : PyStr) (index : Nat) : PyStr :=
  urlHash8 url ++ '-' :: natDec index

/-- A Python dict with string keys and values: an insertion-ordered
association list with unique keys.  Assignment replaces the value in place
when the key exists and appends a new entry otherwise. -/
abbrev Dict := List (PyStr × PyStr)

/-- Python assignment `d[k] = v`. -/
def dictSet : Dict → PyStr → PyStr → Dict
  | [], k, v => [(k, v)]
  | (k1, v1) :: d, k, v =>
    if k1 = k then (k, v) :: d else (k1, v1) :: dictSet d k v

/-- Python lookup `d.get(k)` (`k in d` is its `isSome`). -/
def dictGet? : Dict → PyStr → Option PyStr
  | [], _ => none
  | (k1, v1) :: d, k => if k1 = k then some v1 else dictGet? d k

/-- The key list of a dict, in insertion order. -/
def dictKeys (d : Dict) : List PyStr := d.map Prod.fst

/-- Dataclass `FactObject` from core/types.py. -/
structure FactObject where
  summary : PyStr
  chunk_ids : List PyStr
  source_url : PyStr
deriving DecidableEq

/-- The mutable state of a `FactCentricStrategy` instance: the two stores of
the base class and the fact-list knowledge base. -/
structure FactCentricState where
  chunk_store : Dict
  chunk_url_map : Dict
  knowledge_base : List FactObject
deriving DecidableEq

/-- Python `s.split(sep)` for the one-character separator underscore; the
accumulator holds the current field reversed. -/
def splitU : PyStr → PyStr → List PyStr
  | [], acc => [acc.reverse]
  | c :: cs, acc =>
    if c = '_' then acc.reverse :: splitU cs [] else splitU cs (c :: acc)

/-- Sign-and-digits part of Python `int`, applied after stripping. -/
def pyIntCore : PyStr → Option Int
  | [] => none
  | c :: cs =>
    if c = '+' then (parseDigits? cs).map Int.ofNat
    else if c = '-' then (parseDigits? cs).map (fun n => -(n : Int))
    else (parseDigits? (c :: cs)).map Int.ofNat

/-- Python `int(s)` on an underscore-free token: optional surrounding
whitespace, an optional single sign, then at least one decimal digit;
`none` models the ValueError path. -/
def pyInt? (s : PyStr) : Option Int := pyIntCore (pyStrip s)

/-- Python `s.startswith(tag)`, first argument the tag. -/
def startsWithTag : PyStr → PyStr → Bool
  | [], _ => true
  | _ :: _, [] => false
  | c :: cs, d :: ds => c = d && startsWithTag cs ds

/-- The tag tested by `fact_id.startswith` in `reconstruct_report_context`:
the word fact followed by an underscore. -/
def factTag : PyStr := ['f', 'a', 'c', 't', '_']

/-- One iteration of the fact-id selection loop of
`reconstruct_report_context` (core/strategies/fact_centric.py): accept the
item when it starts with the tag, the field between the first and second
underscore parses as a Python int, and that index is in range; in every other
case select nothing (the source catches ValueError and IndexError and
continues). -/
def selOne (kb : List FactObject) (fact_id : PyStr) : Option FactObject :=
  if startsWithTag factTag fact_id then
    ((splitU fact_id [])[1]?).bind fun tok =>
      (pyInt? tok).bind fun index =>
        if 0 ≤ index ∧ index < (kb.length : Int) then kb[index.toNat]? else none
  else none

/-- The selection loop of `reconstruct_report_context` over `relevant_items`. -/
def selectFacts (kb : List FactObject) (items : List PyStr) : List FactObject :=
  items.filterMap (selOne kb)

/-- The order-preserving deduplication loop of `reconstruct_report_context`;
`seen` is the set of ids already kept. -/
def dedupAux (seen : List PyStr) : List PyStr → List PyStr
  | [] => []
  | x :: xs => if x ∈ seen then dedupAux seen xs else x :: dedupAux (x :: seen) xs

/-- The visible separator joining reconstructed chunks: blank line, three
dashes, blank line. -/
def sepVisible : PyStr := ['\n', '\n', '-', '-', '-', '\n', '\n']

/-- The facts `reconstruct_report_context` works on: the whole knowledge base
when `relevant_items` is `None`, the parsed selection otherwise. -/
def selectedFacts (st : FactCentricState) (relevant_items : Option (List PyStr)) :
    List FactObject :=
  match relevant_items with
  | none => st.knowledge_base
  | some items => selectFacts st.knowledge_base items

/-- Method `FactCentricStrategy.reconstruct_report_context` (fact_centric.py): empty
string on an empty knowledge base; otherwise select facts, collect their chunk
ids in order, deduplicate preserving first-seen order, resolve each id still
present in the chunk store, and join with the visible separator. -/
def reconstruct_report_context (st : FactCentricState)
    (relevant_items : Option (List PyStr)) : PyStr :=
  if st.knowledge_base = [] then []
  else
    let all_chunk_ids := ((selectedFacts st relevant_items).map FactObject.chunk_ids).flatten
    let unique_chunk_ids := dedupAux [] all_chunk_ids
    let chunks := unique_chunk_ids.filterMap (fun cid => dictGet? st.chunk_store cid)
    pyJoin sepVisible chunks

/-- The list of well-formed fact ids of a knowledge base of length n, in
order, as emitted by `get_checklist_context`. -/
def all_fact_ids (n : Nat) : List PyStr :=
  (List.range n).map (fun i => factTag ++ natDec i)

/-- Python list indexing `l[i]` with an int index: non-negative indices read
from the front, negative indices from the back; `none` models IndexError. -/
def pyIdx? {α : Type} (l : List α) (i : Int) : Option α :=
  if 0 ≤ i then l[i.toNat]?
  else if 0 ≤ i + (l.length : Int) then l[(i + (l.length : Int)).toNat]? else none

/-- The comprehension mapping service-returned indices back to chunk ids,
written identically in `_filter_chunks` (chunk_filtering.py) and
`_extract_facts` (fact_centric.py): keep an index only when it is below the
number of chunks — there is no lower bound check — then read the pair with
Python indexing; an IndexError from an index below minus the length aborts
the whole comprehension (`Except.error`). -/
def mapIndices (chunk_pairs : List (PyStr × PyStr)) : List Int → Except Unit (List PyStr)
  | [] => Except.ok []
  | i :: rest =>
    if i < (chunk_pairs.length : Int) then
      match pyIdx? chunk_pairs i with
      | none => Except.error ()
      | some p => (mapIndices chunk_pairs rest).map (fun ids => p.1 :: ids)
    else mapIndices chunk_pairs rest

/-- Method `_filter_chunks` (chunk_filtering.py) with the parsed `relevant_indices`
of the completion response passed as an oracle: an empty chunk list
short-circuits (the service is not called), otherwise the returned indices
are mapped back to chunk ids. -/
def filter_chunks (relevant_indices : List Int)
    (chunk_pairs : List (PyStr × PyStr)) : Except Unit (List PyStr) :=
  if chunk_pairs = [] then Except.ok [] else mapIndices chunk_pairs relevant_indices

/-- The store state shared by every strategy instance: `chunk_store` and the
parallel `chunk_url_map` (base.py). -/
structure StoreState where
  chunk_store : Dict
  chunk_url_map : Dict
deriving DecidableEq

/-- The inner enumerate loop of `_chunk_and_store`: store each chunk of one
url under its generated id — plain dict assignment, overwriting any existing
entry — and collect the (chunk_id, chunk_text) pairs in order. -/
def storeLoop (url : PyStr) : List PyStr → Nat → StoreState → StoreState × List (PyStr × PyStr)
  | [], _, st => (st, [])
  | chunk_text :: rest, index, st =>
    let chunk_id := generate_chunk_id url index
    let st1 : StoreState :=
      ⟨dictSet st.chunk_store chunk_id chunk_text, dictSet st.chunk_url_map chunk_id url⟩
    let out := storeLoop url rest (index + 1) st1
    (out.1, (chunk_id, chunk_text) :: out.2)

/-- Method `_chunk_and_store(search_results)` from base.py, the external sentence
tokenizer `tok` a parameter of the embedding: skip entries whose content is
empty or whitespace-only, chunk the rest with `chunk_documents`, store every
chunk and return its (chunk_id, chunk_text) pair. -/
def chunk_and_store (tok : PyStr → List PyStr) :
    List (PyStr × PyStr) → StoreState → StoreState × List (PyStr × PyStr)
  | [], st => (st, [])
  | (url, content) :: rest, st =>
    if pyStrip content = [] then chunk_and_store tok rest st
    else
      let out1 := storeLoop url (chunk_documents tok content) 0 st
      let out2 := chunk_and_store tok rest out1.1
      (out2.1, out1.2 ++ out2.2)

/-- How one storing pass changes the stores: key sets only grow, entries
under ids not in the emitted pairs are untouched, every emitted id is a key
afterwards, and the two stores keep identical key lists. -/
def StoreEvolves (st st' : StoreState) (pairs : List (PyStr × PyStr)) : Prop :=
  (∀ k, k ∈ dictKeys st.chunk_store → k ∈ dictKeys st'.chunk_store) ∧
  (∀ k, k ∈ dictKeys st.chunk_url_map → k ∈ dictKeys st'.chunk_url_map) ∧
  (∀ k, k ∉ pairs.map Prod.fst →
    dictGet? st'.chunk_store k = dictGet? st.chunk_store k ∧
    dictGet? st'.chunk_url_map k = dictGet? st.chunk_url_map k) ∧
  (∀ p ∈ pairs, p.1 ∈ dictKeys st'.chunk_store) ∧
  (dictKeys st.chunk_store = dictKeys st.chunk_url_map →
    dictKeys st'.chunk_store = dictKeys st'.chunk_url_map)

/-- The guard `_chunk_and_store` applies to an entry: true when the content
has a non-whitespace character. -/
def nonBlank (r : PyStr × PyStr) : Bool := !(pyStrip r.2).isEmpty

/-- The prompt payload of `_summarize_pages` (summarization.py): every entry
of the batch — blank or not — with its content truncated to the first 5000
characters. -/
def pagesPayload (search_results : List (PyStr × PyStr)) : List (PyStr × PyStr) :=
  search_results.map (fun r => (r.1, r.2.take 5000))

/-- Method `_summarize_pages` with the completion response as oracle: empty batch
short-circuits to the empty summary, otherwise the stripped response. -/
def summarize_pages (oracle : PyStr) (search_results : List (PyStr × PyStr)) : PyStr :=
  if search_results = [] then [] else pyStrip oracle

/-- Method `_merge_summaries` (summarization.py) with the completion response as
oracle; the Bool records whether the completion service was called. -/
def merge_summaries (oracle : PyStr) (old_summary new_summary : PyStr) : PyStr × Bool :=
  if old_summary = [] then (new_summary, false)
  else if new_summary = [] then (old_summary, false)
  else (pyStrip oracle, true)

/-- Method `SummarizationStrategy.process` with both completion responses as
oracles: summarize the batch, then merge into a non-empty existing summary or
adopt the batch summary outright; the Bool is the merge call flag. -/
def processSum (sum_oracle merge_oracle : PyStr) (search_results : List (PyStr × PyStr))
    (knowledge_base : PyStr) : PyStr × Bool :=
  let new_summary := summarize_pages sum_oracle search_results
  if knowledge_base ≠ [] then merge_summaries merge_oracle knowledge_base new_summary
  else (new_summary, false)

/-- The mutable state of a `ChunkFilteringStrategy` instance. -/
structure ChunkFilteringState where
  chunk_store : Dict
  chunk_url_map : Dict
  knowledge_base : List PyStr
deriving DecidableEq

/-- Knowledge-base update of `ChunkFilteringStrategy.process` applied to the
outcome of `_filter_chunks`: on an escaping IndexError (`error`) the
knowledge base is left as it was while the stores keep the chunks already
written; on success the returned ids are appended.  The Bool records whether
the call raised. -/
def applyCF (st : ChunkFilteringState) (store : StoreState) :
    Except Unit (List PyStr) → ChunkFilteringState × Bool
  | Except.error _ => (⟨store.chunk_store, store.chunk_url_map, st.knowledge_base⟩, true)
  | Except.ok ids =>
    (⟨store.chunk_store, store.chunk_url_map, st.knowledge_base ++ ids⟩, false)

/-- Method `ChunkFilteringStrategy.process` with the tokenizer and the parsed
`relevant_indices` of the completion response as oracles. -/
def processCF (tok : PyStr → List PyStr) (relevant_indices : List Int)
    (search_results : List (PyStr × PyStr)) (st : ChunkFilteringState) :
    ChunkFilteringState × Bool :=
  applyCF st (chunk_and_store tok search_results ⟨st.chunk_store, st.chunk_url_map⟩).1
    (filter_chunks relevant_indices
      (chunk_and_store tok search_results ⟨st.chunk_store, st.chunk_url_map⟩).2)

/-- One parsed fact record of the completion response of `_extract_facts`,
with the source's `.get` defaults already applied. -/
structure FactData where
  summary : PyStr
  chunk_indices : List Int

/-- The record loop of `_extract_facts` (fact_centric.py): drop records with
an empty summary or no indices, map the indices to chunk ids (IndexError from
a large negative index propagates), drop records whose ids all fell out of
range, and read the source url of the first id from the url map (empty string
default). -/
def extractLoop (urlMap : Dict) (chunk_pairs : List (PyStr × PyStr)) :
    List FactData → Except Unit (List FactObject)
  | [] => Except.ok []
  | fd :: rest =>
    if fd.summary = [] ∨ fd.chunk_indices = [] then extractLoop urlMap chunk_pairs rest
    else
      match mapIndices chunk_pairs fd.chunk_indices with
      | Except.error e => Except.error e
      | Except.ok chunk_ids =>
        match chunk_ids with
        | [] => extractLoop urlMap chunk_pairs rest
        | c0 :: crest =>
          (extractLoop urlMap chunk_pairs rest).map
            (fun fs => ⟨fd.summary, c0 :: crest, (dictGet? urlMap c0).getD []⟩ :: fs)

/-- Method `_extract_facts` with the parsed facts list of the completion response as
oracle: an empty chunk list short-circuits (the service is not called). -/
def extract_facts (urlMap : Dict) (chunk_pairs : List (PyStr × PyStr))
    (facts_list : List FactData) : Except Unit (List FactObject) :=
  if chunk_pairs = [] then Except.ok []
  else extractLoop urlMap chunk_pairs facts_list

/-- Knowledge-base update of `FactCentricStrategy.process`, as `applyCF`. -/
def applyFC (st : FactCentricState) (store : StoreState) :
    Except Unit (List FactObject) → FactCentricState × Bool
  | Except.error _ => (⟨store.chunk_store, store.chunk_url_map, st.knowledge_base⟩, true)
  | Except.ok new_facts =>
    (⟨store.chunk_store, store.chunk_url_map, st.knowledge_base ++ new_facts⟩, false)

/-- Method `FactCentricStrategy.process` with the tokenizer and the parsed facts
list of the completion response as oracles. -/
def processFC (tok : PyStr → List PyStr) (facts_list : List FactData)
    (search_results : List (PyStr × PyStr)) (st : FactCentricState) :
    FactCentricState × Bool :=
  applyFC st (chunk_and_store tok search_results ⟨st.chunk_store, st.chunk_url_map⟩).1
    (extract_facts
      (chunk_and_store tok search_results ⟨st.chunk_store, st.chunk_url_map⟩).1.chunk_url_map
      (chunk_and_store tok search_results ⟨st.chunk_store, st.chunk_url_map⟩).2
      facts_list)

/-- The C10 invariant for the filtering strategy: both stores share one key
list and every knowledge-base id is a key of the chunk store. -/
def InvCF (st : ChunkFilteringState) : Prop :=
  dictKeys st.chunk_store = dictKeys st.chunk_url_map ∧
  ∀ id ∈ st.knowledge_base, id ∈ dictKeys st.chunk_store

/-- The C10 invariant for the fact-centric strategy: both stores share one
key list and every chunk id of every fact is a key of the chunk store. -/
def InvFC (st : FactCentricState) : Prop :=
  dictKeys st.chunk_store = dictKeys st.chunk_url_map ∧
  ∀ f ∈ st.knowledge_base, ∀ id ∈ f.chunk_ids, id ∈ dictKeys st.chunk_store

/-! ## Properties -/

theorem pyJoin_cons_cons (sep x y : PyStr) (ys : List PyStr) :
    pyJoin sep (x :: y :: ys) = x ++ sep ++ pyJoin sep (y :: ys) := rfl

theorem pyJoin_snoc (sep : PyStr) (xs : List PyStr) (p : PyStr) (hxs : xs ≠ []) :
    pyJoin sep (xs ++ [p]) = pyJoin sep xs ++ sep ++ p := by
  induction xs with
  | nil => exact absurd rfl hxs
  | cons x xs ih =>
    cases xs with
    | nil => rfl
    | cons y ys =>
      have h1 : (x :: y :: ys) ++ [p] = x :: ((y :: ys) ++ [p]) := rfl
      have h2 : (y :: ys) ++ [p] = y :: (ys ++ [p]) := rfl
      rw [h1, h2, pyJoin_cons_cons, ← h2, ih (by simp), pyJoin_cons_cons]
      simp [List.append_assoc]

theorem pyJoin_snoc_length (xs : List PyStr) (p : PyStr) (hxs : xs ≠ []) :
    (pyJoin nlSep (xs ++ [p])).length = (pyJoin nlSep xs).length + 1 + p.length := by
  rw [pyJoin_snoc nlSep xs p hxs]
  simp [nlSep]
  omega

theorem nonBlankPieces_cons (raw : PyStr) (rest : List PyStr) :
    nonBlankPieces (raw :: rest) =
      if pyStrip raw = [] then nonBlankPieces rest
      else pyStrip raw :: nonBlankPieces rest := by
  by_cases hp : pyStrip raw = [] <;> simp [nonBlankPieces, hp]

theorem mergeLoop_chunkOk (char_limit : Nat) (segments : List PyStr) :
    ∀ current current_len, GoodOpen char_limit current current_len →
      ∀ c ∈ mergeLoop char_limit segments current current_len,
        (pyJoin nlSep c).length ≤ char_limit ∨ c.length = 1 := by
  induction segments with
  | nil =>
    intro current current_len hgood c hc
    simp only [mergeLoop] at hc
    split at hc
    · simp at hc
    · next hcur =>
      simp only [List.mem_singleton] at hc
      subst hc
      rcases hgood with h | ⟨hlen, hok⟩
      · exact absurd h hcur
      · rw [← hlen]; exact hok
  | cons raw rest ih =>
    intro current current_len hgood c hc
    simp only [mergeLoop] at hc
    by_cases hp : pyStrip raw = []
    · rw [if_pos hp] at hc
      exact ih current current_len hgood c hc
    · rw [if_neg hp] at hc
      by_cases hcur : current = []
      · subst hcur
        simp only [ne_eq, not_true_eq_false, false_and, if_false, List.nil_append,
          if_pos rfl] at hc
        refine ih [pyStrip raw] (pyStrip raw).length ?_ c hc
        exact Or.inr ⟨rfl, Or.inr rfl⟩
      · simp only [if_neg hcur] at hc
        by_cases hbig : current ≠ [] ∧ current_len + 1 + (pyStrip raw).length > char_limit
        · rw [if_pos hbig] at hc
          rcases List.mem_cons.mp hc with hc0 | hc1
          · subst hc0
            rcases hgood with h | ⟨hlen, hok⟩
            · exact absurd h hcur
            · rw [← hlen]; exact hok
          · refine ih [pyStrip raw] (pyStrip raw).length ?_ c hc1
            exact Or.inr ⟨rfl, Or.inr rfl⟩
        · rw [if_neg hbig] at hc
          have hle : current_len + 1 + (pyStrip raw).length ≤ char_limit := by
            rcases Nat.lt_or_ge char_limit (current_len + 1 + (pyStrip raw).length) with hgt | hge
            · exact absurd ⟨hcur, hgt⟩ hbig
            · omega
          refine ih (current ++ [pyStrip raw]) (current_len + 1 + (pyStrip raw).length) ?_ c hc
          rcases hgood with h | ⟨hlen, _⟩
          · exact absurd h hcur
          refine Or.inr ⟨?_, Or.inl hle⟩
          rw [pyJoin_snoc_length current (pyStrip raw) hcur, ← hlen]

theorem mergeLoop_flatten (char_limit : Nat) (segments : List PyStr) :
    ∀ current current_len,
      (mergeLoop char_limit segments current current_len).flatten =
        current ++ nonBlankPieces segments := by
  induction segments with
  | nil =>
    intro current current_len
    simp only [mergeLoop, nonBlankPieces, List.filterMap_nil]
    split
    · simp_all
    · simp
  | cons raw rest ih =>
    intro current current_len
    simp only [mergeLoop]
    by_cases hp : pyStrip raw = []
    · rw [if_pos hp, ih, nonBlankPieces_cons, if_pos hp]
    · rw [if_neg hp]
      by_cases hcur : current = []
      · subst hcur
        simp only [ne_eq, not_true_eq_false, false_and, if_false, List.nil_append,
          if_pos rfl]
        rw [ih, nonBlankPieces_cons, if_neg hp]
        simp
      · simp only [if_neg hcur]
        by_cases hbig : current ≠ [] ∧ current_len + 1 + (pyStrip raw).length > char_limit
        · rw [if_pos hbig]
          simp only [List.flatten_cons]
          rw [ih, nonBlankPieces_cons, if_neg hp]
          simp
        · rw [if_neg hbig, ih, nonBlankPieces_cons, if_neg hp]
          simp [List.append_assoc]

/-- C1 (amended).  For every input segment sequence and limit: every chunk the
merge loop emits either seals to a string of length at most the limit or
consists of exactly one (oversized) piece; each piece of each chunk is a
stripped non-blank input segment; concatenating the chunks' pieces in order
reproduces exactly the stripped forms of the non-blank input segments, each
exactly once, in input order; and `merge_segments` is the newline-sealing of
those chunks.  (The original claim spoke of the non-empty input segments
themselves; the loop strips every segment and drops whitespace-only ones, see
the counterexample.) -/
theorem claim_C1_chunking (segments : List PyStr) (char_limit : Nat) :
    (∀ c ∈ mergeLoop char_limit segments [] 0,
        (pyJoin nlSep c).length ≤ char_limit ∨ c.length = 1) ∧
    (∀ c ∈ mergeLoop char_limit segments [] 0, ∀ p ∈ c, p ∈ nonBlankPieces segments) ∧
    (mergeLoop char_limit segments [] 0).flatten = nonBlankPieces segments ∧
    merge_segments segments char_limit =
      (mergeLoop char_limit segments [] 0).map (pyJoin nlSep) := by
  refine ⟨mergeLoop_chunkOk char_limit segments [] 0 (Or.inl rfl), ?_,
    mergeLoop_flatten char_limit segments [] 0, rfl⟩
  intro c hc p hp
  have hfl := mergeLoop_flatten char_limit segments [] 0
  simp only [List.nil_append] at hfl
  rw [← hfl]
  exact List.mem_flatten.mpr ⟨c, hc, hp⟩

/-- C1 counterexample.  The segment made of a single space is a non-empty
input segment, yet `merge_segments` emits no chunk containing it; and a kept
segment is reproduced only in stripped form, not as the input segment itself.
So the emitted chunks' segments are not "the non-empty segments of the input". -/
theorem claim_C1_counterexample :
    merge_segments [[' ']] 500 = [] ∧ ([' '] : PyStr) ≠ [] ∧
    merge_segments [[' ', 'a', ' ']] 500 = [['a']] ∧
    ([' ', 'a', ' '] : PyStr) ≠ ['a'] := by
  decide

/-- Witness for C1 at a concrete input: with limit 3 and segments "ab", "cd",
the first emitted chunk is within the limit or a lone piece. -/
theorem claim_C1_witness :
    (pyJoin nlSep [['a', 'b']]).length ≤ 3 ∨ ([['a', 'b']] : List PyStr).length = 1 :=
  (claim_C1_chunking [['a', 'b'], ['c', 'd']] 3).1 [['a', 'b']] (by decide)

theorem digitChar_val : ∀ d, d < 10 →
    (digitChar d).toNat - 48 = d ∧ isDigitChar (digitChar d) = true ∧
      digitChar d ≠ '_' ∧ pySpace (digitChar d) = false ∧
      digitChar d ≠ '+' ∧ digitChar d ≠ '-' := by
  decide

theorem digitsVal_natDecAux : ∀ fuel n a, n < fuel →
    (natDecAux fuel n).foldl (fun a c => a * 10 + (c.toNat - 48)) a =
      a * 10 ^ (natDecAux fuel n).length + n := by
  intro fuel
  induction fuel with
  | zero => intro n a h; omega
  | succ fuel ih =>
    intro n a h
    by_cases h10 : n < 10
    · simp only [natDecAux, if_pos h10, List.foldl_cons, List.foldl_nil,
        List.length_singleton, pow_one]
      rw [(digitChar_val n h10).1]
    · have hdiv : n / 10 < fuel := by
        have h1 : n / 10 < n := Nat.div_lt_self (by omega) (by omega)
        omega
      simp only [natDecAux, if_neg h10, List.foldl_append, List.foldl_cons,
        List.foldl_nil, List.length_append, List.length_singleton]
      rw [ih (n / 10) a hdiv, (digitChar_val (n % 10) (Nat.mod_lt n (by omega))).1]
      have hmod := Nat.div_add_mod n 10
      ring_nf
      omega

theorem natDecAux_digits : ∀ fuel n, n < fuel →
    (natDecAux fuel n).all isDigitChar = true ∧ natDecAux fuel n ≠ [] := by
  intro fuel
  induction fuel with
  | zero => intro n h; omega
  | succ fuel ih =>
    intro n h
    by_cases h10 : n < 10
    · simp only [natDecAux, if_pos h10]
      refine ⟨?_, by simp⟩
      simp [(digitChar_val n h10).2.1]
    · have hdiv : n / 10 < fuel := by
        have h1 : n / 10 < n := Nat.div_lt_self (by omega) (by omega)
        omega
      simp only [natDecAux, if_neg h10]
      refine ⟨?_, by simp⟩
      simp only [List.all_append, Bool.and_eq_true]
      exact ⟨(ih (n / 10) hdiv).1,
        by simp [(digitChar_val (n % 10) (Nat.mod_lt n (by omega))).2.1]⟩

theorem parseDigits?_natDec (n : Nat) : parseDigits? (natDec n) = some n := by
  unfold natDec
  have h := natDecAux_digits (n + 1) n (Nat.lt_succ_self n)
  rw [parseDigits?, if_pos ⟨h.2, h.1⟩, digitsVal,
    digitsVal_natDecAux (n + 1) n 0 (Nat.lt_succ_self n)]
  simp

theorem natDec_inj {i j : Nat} (h : natDec i = natDec j) : i = j := by
  have hi := parseDigits?_natDec i
  have hj := parseDigits?_natDec j
  rw [h, hj] at hi
  exact (Option.some_inj.mp hi).symm

/-- C6.  For a fixed url the chunk id is injective in the index (and it is a
pure function of the url and index, so repeated calls with the same arguments
return the same identifier by definition). -/
theorem claim_C6_chunk_id (url : PyStr) (i j : Nat) (hij : i ≠ j) :
    generate_chunk_id url i ≠ generate_chunk_id url j := by
  intro h
  unfold generate_chunk_id at h
  have h2 := List.append_cancel_left h
  have h3 : natDec i = natDec j := by
    injection h2
  exact hij (natDec_inj h3)

/-- Witness for C6 at a concrete input: indices 0 and 1 of the same url get
distinct chunk ids. -/
theorem claim_C6_witness : generate_chunk_id ['u'] 0 ≠ generate_chunk_id ['u'] 1 :=
  claim_C6_chunk_id ['u'] 0 1 (by decide)

theorem dedupAux_sublist (l : List PyStr) : ∀ seen, (dedupAux seen l).Sublist l := by
  induction l with
  | nil => intro seen; simp [dedupAux]
  | cons x xs ih =>
    intro seen
    simp only [dedupAux]
    by_cases hx : x ∈ seen
    · rw [if_pos hx]
      exact (ih seen).cons x
    · rw [if_neg hx]
      exact (ih (x :: seen)).cons₂ x

theorem dedupAux_mem (l : List PyStr) :
    ∀ seen x, x ∈ dedupAux seen l ↔ x ∈ l ∧ x ∉ seen := by
  induction l with
  | nil => intro seen x; simp [dedupAux]
  | cons y ys ih =>
    intro seen x
    simp only [dedupAux]
    by_cases hy : y ∈ seen
    · rw [if_pos hy, ih seen x]
      constructor
      · exact fun ⟨h1, h2⟩ => ⟨List.mem_cons_of_mem y h1, h2⟩
      · rintro ⟨h1, h2⟩
        rcases List.mem_cons.mp h1 with h1 | h1
        · exact absurd (h1 ▸ hy) h2
        · exact ⟨h1, h2⟩
    · rw [if_neg hy]
      constructor
      · intro hmem
        rcases List.mem_cons.mp hmem with h1 | h1
        · exact ⟨h1 ▸ List.mem_cons_self y ys, h1 ▸ hy⟩
        · have := (ih (y :: seen) x).mp h1
          exact ⟨List.mem_cons_of_mem y this.1,
            fun hc => this.2 (List.mem_cons_of_mem y hc)⟩
      · rintro ⟨h1, h2⟩
        by_cases hxy : x = y
        · exact hxy ▸ List.mem_cons_self x _
        · rcases List.mem_cons.mp h1 with h1 | h1
          · exact absurd h1 hxy
          · refine List.mem_cons_of_mem y ((ih (y :: seen) x).mpr ⟨h1, ?_⟩)
            intro hc
            rcases List.mem_cons.mp hc with hc | hc
            · exact hxy hc
            · exact h2 hc

theorem dedupAux_nodup (l : List PyStr) : ∀ seen, (dedupAux seen l).Nodup := by
  induction l with
  | nil => intro seen; simp [dedupAux]
  | cons y ys ih =>
    intro seen
    simp only [dedupAux]
    by_cases hy : y ∈ seen
    · rw [if_pos hy]; exact ih seen
    · rw [if_neg hy]
      refine List.nodup_cons.mpr ⟨?_, ih (y :: seen)⟩
      intro hc
      exact ((dedupAux_mem ys (y :: seen) y).mp hc).2 (List.mem_cons_self y seen)

theorem selOne_nil (item : PyStr) : selOne ([] : List FactObject) item = none := by
  unfold selOne
  split
  · cases h1 : (splitU item [])[1]? with
    | none => rw [Option.none_bind]
    | some tok =>
      simp only [Option.some_bind]
      cases h2 : pyInt? tok with
      | none => rw [Option.none_bind]
      | some index =>
        simp only [Option.some_bind]
        split
        · exact List.getElem?_nil
        · rfl
  · rfl

/-- C2.  The id list `reconstruct_report_context` resolves is duplicate-free,
a sublist (hence order-preserving) of the concatenated chunk ids of the
selected facts, and mentions exactly the ids occurring there; the result is
the visible-separator join of the stored texts of exactly those ids, ids
missing from the chunk store being skipped.  Determinism is definitional: the
embedding is a pure function of the state and the selection. -/
theorem claim_C2_reconstruct (st : FactCentricState)
    (relevant_items : Option (List PyStr)) :
    (dedupAux [] ((selectedFacts st relevant_items).map FactObject.chunk_ids).flatten).Nodup ∧
    (dedupAux [] ((selectedFacts st relevant_items).map FactObject.chunk_ids).flatten).Sublist
      ((selectedFacts st relevant_items).map FactObject.chunk_ids).flatten ∧
    (∀ x, x ∈ dedupAux [] ((selectedFacts st relevant_items).map FactObject.chunk_ids).flatten ↔
      x ∈ ((selectedFacts st relevant_items).map FactObject.chunk_ids).flatten) ∧
    reconstruct_report_context st relevant_items =
      pyJoin sepVisible
        ((dedupAux [] ((selectedFacts st relevant_items).map FactObject.chunk_ids).flatten).filterMap
          (fun cid => dictGet? st.chunk_store cid)) := by
  refine ⟨dedupAux_nodup _ [], dedupAux_sublist _ [], ?_, ?_⟩
  · intro x
    rw [dedupAux_mem]
    simp
  · unfold reconstruct_report_context
    by_cases hkb : st.knowledge_base = []
    · rw [if_pos hkb]
      have hsel : selectedFacts st relevant_items = [] := by
        unfold selectedFacts
        cases relevant_items with
        | none => exact hkb
        | some items =>
          unfold selectFacts
          rw [hkb]
          exact List.filterMap_eq_nil_iff.mpr fun item _ => selOne_nil item
      rw [hsel]
      rfl
    · rw [if_neg hkb]

/-- Witness for C2 at a concrete state (C2's only non-type binders are the
state and the selection, so this just instantiates them). -/
theorem claim_C2_witness :
    (dedupAux []
      ((selectedFacts ⟨[(['c'], ['t'])], [(['c'], ['u'])],
          [⟨['s'], [['c'], ['c']], ['u']⟩]⟩ none).map FactObject.chunk_ids).flatten).Nodup :=
  (claim_C2_reconstruct ⟨[(['c'], ['t'])], [(['c'], ['u'])],
    [⟨['s'], [['c'], ['c']], ['u']⟩]⟩ none).1

theorem isDigitChar_props {c : Char} (h : isDigitChar c = true) :
    c ≠ '_' ∧ pySpace c = false ∧ c ≠ '+' ∧ c ≠ '-' := by
  simp only [isDigitChar, Bool.and_eq_true, decide_eq_true_eq] at h
  refine ⟨?_, ?_, ?_, ?_⟩
  · intro he
    rw [he, show ('_').toNat = 95 from rfl] at h
    omega
  · simp only [pySpace, Bool.or_eq_false_iff, decide_eq_false_iff_not]
    omega
  · intro he
    rw [he, show ('+').toNat = 43 from rfl] at h
    omega
  · intro he
    rw [he, show ('-').toNat = 45 from rfl] at h
    omega

theorem dropWhile_all_false {p : Char → Bool} :
    ∀ s : PyStr, (∀ c ∈ s, p c = false) → s.dropWhile p = s := by
  intro s h
  cases s with
  | nil => rfl
  | cons c cs => simp [List.dropWhile_cons, h c (List.mem_cons_self c cs)]

theorem pyStrip_no_space (s : PyStr) (h : ∀ c ∈ s, pySpace c = false) :
    pyStrip s = s := by
  unfold pyStrip
  rw [dropWhile_all_false s h,
    dropWhile_all_false s.reverse (fun c hc => h c (List.mem_reverse.mp hc)),
    List.reverse_reverse]

theorem pyInt?_digits (s : PyStr) (hne : s ≠ []) (hall : s.all isDigitChar = true) :
    pyInt? s = some (Int.ofNat (digitsVal s)) := by
  have hstrip : pyStrip s = s :=
    pyStrip_no_space s fun c hc => (isDigitChar_props (List.all_eq_true.mp hall c hc)).2.1
  unfold pyInt?
  rw [hstrip]
  rcases s with _ | ⟨c, cs⟩
  · exact absurd rfl hne
  · have hc : isDigitChar c = true :=
      List.all_eq_true.mp hall c (List.mem_cons_self c cs)
    have hp := isDigitChar_props hc
    simp only [pyIntCore]
    rw [if_neg hp.2.2.1, if_neg hp.2.2.2, parseDigits?, if_pos ⟨by simp, hall⟩]
    rfl

theorem digitsVal_natDec (n : Nat) : digitsVal (natDec n) = n := by
  rw [digitsVal, natDec, digitsVal_natDecAux (n + 1) n 0 (Nat.lt_succ_self n)]
  simp

theorem pyInt?_natDec (i : Nat) : pyInt? (natDec i) = some (i : Int) := by
  have hd := natDecAux_digits (i + 1) i (Nat.lt_succ_self i)
  rw [pyInt?_digits (natDec i) hd.2 hd.1, digitsVal_natDec]
  rfl

theorem startsWithTag_append : ∀ tag s : PyStr, startsWithTag tag (tag ++ s) = true := by
  intro tag
  induction tag with
  | nil => intro s; rfl
  | cons c cs ih => intro s; simp [startsWithTag, ih s]

theorem splitU_no_us : ∀ (cs acc : PyStr), (∀ c ∈ cs, c ≠ '_') →
    splitU cs acc = [acc.reverse ++ cs] := by
  intro cs
  induction cs with
  | nil => intro acc _; simp [splitU]
  | cons c cs ih =>
    intro acc h
    rw [splitU, if_neg (h c (List.mem_cons_self c cs)),
      ih (c :: acc) (fun d hd => h d (List.mem_cons_of_mem c hd))]
    simp

theorem splitU_factTag (s : PyStr) (hs : ∀ c ∈ s, c ≠ '_') :
    splitU (factTag ++ s) [] = [['f', 'a', 'c', 't'], s] := by
  have h1 : splitU (factTag ++ s) [] = ['f', 'a', 'c', 't'] :: splitU s [] := rfl
  rw [h1, splitU_no_us s [] hs]
  simp

theorem selOne_wellformed (kb : List FactObject) (i : Nat) :
    selOne kb (factTag ++ natDec i) = if i < kb.length then kb[i]? else none := by
  have hd := natDecAux_digits (i + 1) i (Nat.lt_succ_self i)
  have hnu : ∀ c ∈ natDec i, c ≠ '_' :=
    fun c hc => (isDigitChar_props (List.all_eq_true.mp hd.1 c hc)).1
  unfold selOne
  rw [if_pos (startsWithTag_append factTag (natDec i)), splitU_factTag (natDec i) hnu]
  have h2 : ([['f', 'a', 'c', 't'], natDec i] : List PyStr)[1]? = some (natDec i) := rfl
  rw [h2]
  simp only [Option.some_bind]
  rw [pyInt?_natDec]
  simp only [Option.some_bind]
  by_cases hlt : i < kb.length
  · rw [if_pos ⟨Int.natCast_nonneg i, by exact_mod_cast hlt⟩, if_pos hlt,
      Int.toNat_natCast]
  · have hng : ¬(0 ≤ (i : Int) ∧ (i : Int) < (kb.length : Int)) := by
      rintro ⟨_, hcon⟩
      exact hlt (by exact_mod_cast hcon)
    rw [if_neg hng, if_neg hlt]

theorem filterMap_getElem?_range {α : Type} (l : List α) :
    (List.range l.length).filterMap (fun i => l[i]?) = l := by
  induction l with
  | nil => simp
  | cons a l ih =>
    rw [List.length_cons, List.range_succ_eq_map, List.filterMap_cons,
      List.filterMap_map Nat.succ (fun i => (a :: l)[i]?) (List.range l.length)]
    have hcomp : ((fun i => (a :: l)[i]?) ∘ Nat.succ) = fun i => l[i]? := by
      funext i
      simp
    rw [hcomp, ih]
    simp only [List.getElem?_cons_zero]

theorem selectFacts_all (kb : List FactObject) :
    selectFacts kb (all_fact_ids kb.length) = kb := by
  unfold selectFacts all_fact_ids
  rw [List.filterMap_map (fun i => factTag ++ natDec i) (selOne kb) (List.range kb.length)]
  have h : ∀ i ∈ List.range kb.length,
      (selOne kb ∘ fun i => factTag ++ natDec i) i = (fun i => kb[i]?) i := by
    intro i hi
    have hilt := List.mem_range.mp hi
    simp only [Function.comp]
    rw [selOne_wellformed, if_pos hilt]
  rw [List.filterMap_congr h, filterMap_getElem?_range kb]

/-- C3.  Reconstructing with the full well-formed fact-id list equals
reconstructing with `None`, for every fact-centric state. -/
theorem claim_C3_reconstruct_all (st : FactCentricState) :
    reconstruct_report_context st (some (all_fact_ids st.knowledge_base.length)) =
      reconstruct_report_context st none := by
  unfold reconstruct_report_context
  have hsel : selectedFacts st (some (all_fact_ids st.knowledge_base.length)) =
      selectedFacts st none := by
    unfold selectedFacts
    exact selectFacts_all st.knowledge_base
  rw [hsel]

/-- Witness for C3 at a concrete state (no hypotheses: this instantiates the
single state binder). -/
theorem claim_C3_witness :
    reconstruct_report_context
        ⟨[(['c'], ['t'])], [(['c'], ['u'])], [⟨['s'], [['c']], ['u']⟩]⟩
        (some (all_fact_ids 1)) =
      reconstruct_report_context
        ⟨[(['c'], ['t'])], [(['c'], ['u'])], [⟨['s'], [['c']], ['u']⟩]⟩ none :=
  claim_C3_reconstruct_all ⟨[(['c'], ['t'])], [(['c'], ['u'])], [⟨['s'], [['c']], ['u']⟩]⟩

/-- C9 (amended).  An item not starting with the fact tag selects nothing;
anything ever selected is a fact of the knowledge base; a well-formed item
fact underscore index selects exactly the fact at that index when in range
and nothing when out of range.  (The original claim said only items of the
exact well-formed shape are accepted; the parser is looser — it reads the
field between the first and second underscore with Python int semantics, so
items such as fact_0_x, fact_00 or fact_+0 also select, see the
counterexample.) -/
theorem claim_C9_parse (kb : List FactObject) (items : List PyStr)
    (item : PyStr) (i : Nat) :
    (∀ f ∈ selectFacts kb items, f ∈ kb) ∧
    (startsWithTag factTag item = false → selOne kb item = none) ∧
    (i < kb.length → selOne kb (factTag ++ natDec i) = kb[i]?) ∧
    (kb.length ≤ i → selOne kb (factTag ++ natDec i) = none) := by
  refine ⟨?_, ?_, ?_, ?_⟩
  · intro f hf
    obtain ⟨item0, _, hsel⟩ := List.mem_filterMap.mp hf
    unfold selOne at hsel
    split at hsel
    · rcases h1 : (splitU item0 [])[1]? with _ | tok
      · rw [h1, Option.none_bind] at hsel
        exact absurd hsel (by simp)
      · rw [h1] at hsel
        simp only [Option.some_bind] at hsel
        rcases h2 : pyInt? tok with _ | index
        · rw [h2, Option.none_bind] at hsel
          exact absurd hsel (by simp)
        · rw [h2] at hsel
          simp only [Option.some_bind] at hsel
          split at hsel
          · exact List.getElem?_mem hsel
          · exact absurd hsel (by simp)
    · exact absurd hsel (by simp)
  · intro h
    unfold selOne
    rw [if_neg (by simp [h])]
  · intro h
    rw [selOne_wellformed, if_pos h]
  · intro h
    rw [selOne_wellformed, if_neg (by omega)]

/-- Witness for C9 at a concrete input: the well-formed id fact underscore
zero selects the sole fact of a one-fact knowledge base. -/
theorem claim_C9_witness :
    selOne [(⟨['s'], [['c']], ['u']⟩ : FactObject)] (factTag ++ natDec 0) =
      some ⟨['s'], [['c']], ['u']⟩ :=
  (claim_C9_parse [⟨['s'], [['c']], ['u']⟩] [] [] 0).2.2.1 (by decide)

/-- C9 counterexample.  The item fact underscore zero underscore x is not of
the exact well-formed shape, yet it selects fact 0: the parser only reads the
field between the first and second underscore. -/
theorem claim_C9_counterexample :
    selectFacts [(⟨['s'], [['c']], ['u']⟩ : FactObject)]
        [['f', 'a', 'c', 't', '_', '0', '_', 'x']] = [⟨['s'], [['c']], ['u']⟩] ∧
    (['f', 'a', 'c', 't', '_', '0', '_', 'x'] : PyStr) ≠ factTag ++ natDec 0 := by
  decide

theorem pyIdx?_nonneg {α : Type} (l : List α) (i : Int) (h0 : 0 ≤ i) :
    pyIdx? l i = l[i.toNat]? := by
  unfold pyIdx?
  rw [if_pos h0]

theorem pyIdx?_mem {α : Type} (l : List α) (i : Int) (a : α)
    (h : pyIdx? l i = some a) : a ∈ l := by
  unfold pyIdx? at h
  split at h
  · exact List.getElem?_mem h
  · split at h
    · exact List.getElem?_mem h
    · exact Option.noConfusion h

theorem mapIndices_nonneg (pairs : List (PyStr × PyStr)) :
    ∀ idxs : List Int, (∀ i ∈ idxs, 0 ≤ i) →
      mapIndices pairs idxs = Except.ok (idxs.filterMap (fun i =>
        if i < (pairs.length : Int) then (pyIdx? pairs i).map Prod.fst else none)) := by
  intro idxs
  induction idxs with
  | nil => intro _; rfl
  | cons i rest ih =>
    intro h
    have h0 : 0 ≤ i := h i (List.mem_cons_self i rest)
    have hrest := ih fun j hj => h j (List.mem_cons_of_mem i hj)
    simp only [mapIndices, List.filterMap_cons]
    by_cases hi : i < (pairs.length : Int)
    · rw [if_pos hi, if_pos hi]
      have htn : i.toNat < pairs.length := by omega
      rw [pyIdx?_nonneg pairs i h0, List.getElem?_eq_getElem htn, hrest]
      simp [Except.map]
    · rw [if_neg hi, if_neg hi, hrest]

theorem mapIndices_mem (pairs : List (PyStr × PyStr)) :
    ∀ (idxs : List Int) (ids : List PyStr), mapIndices pairs idxs = Except.ok ids →
      ∀ x ∈ ids, ∃ p ∈ pairs, x = p.1 := by
  intro idxs
  induction idxs with
  | nil =>
    intro ids h x hx
    simp only [mapIndices] at h
    cases h
    simp at hx
  | cons i rest ih =>
    intro ids h x hx
    simp only [mapIndices] at h
    split at h
    · rcases hp : pyIdx? pairs i with _ | p
      · rw [hp] at h
        exact Except.noConfusion h
      · rw [hp] at h
        rcases hm : mapIndices pairs rest with e | ids0
        · rw [hm] at h
          simp [Except.map] at h
        · rw [hm] at h
          simp only [Except.map] at h
          cases h
          rcases List.mem_cons.mp hx with hx0 | hx1
          · exact ⟨p, pyIdx?_mem pairs i p hp, hx0⟩
          · exact ih ids0 hm x hx1
    · exact ih ids h x hx

theorem filter_chunks_mem (idxs : List Int) (pairs : List (PyStr × PyStr))
    (ids : List PyStr) (h : filter_chunks idxs pairs = Except.ok ids) :
    ∀ x ∈ ids, ∃ p ∈ pairs, x = p.1 := by
  unfold filter_chunks at h
  split at h
  · cases h
    simp
  · exact mapIndices_mem pairs idxs ids h

/-- C5 (amended).  When every index returned by the completion service is
non-negative, the mapping comprehension of both strategies never fails and
keeps exactly the in-range indices, each contributing the id of its chunk
pair in order, indices at or above the chunk count being silently dropped
per-item.  (The original claim also covered negative indices: those are not
bound-checked — an index within minus-length reads a chunk from the back,
one below that raises IndexError, see the counterexample.) -/
theorem claim_C5_index_mapping (relevant_indices : List Int)
    (chunk_pairs : List (PyStr × PyStr)) (h : ∀ i ∈ relevant_indices, 0 ≤ i) :
    mapIndices chunk_pairs relevant_indices =
      Except.ok (relevant_indices.filterMap (fun i =>
        if i < (chunk_pairs.length : Int)
        then (pyIdx? chunk_pairs i).map Prod.fst else none)) ∧
    filter_chunks relevant_indices chunk_pairs =
      Except.ok (relevant_indices.filterMap (fun i =>
        if i < (chunk_pairs.length : Int)
        then (pyIdx? chunk_pairs i).map Prod.fst else none)) := by
  refine ⟨mapIndices_nonneg chunk_pairs relevant_indices h, ?_⟩
  unfold filter_chunks
  split
  · next hnil =>
    subst hnil
    rw [List.filterMap_eq_nil_iff.mpr]
    intro i hi
    rw [if_neg]
    have := h i hi
    simp only [List.length_nil, Nat.cast_zero]
    omega
  · exact mapIndices_nonneg chunk_pairs relevant_indices h

/-- Witness for C5 at a concrete input: indices 0 and 5 against one chunk
keep index 0 and silently drop index 5. -/
theorem claim_C5_witness :
    mapIndices [(['a'], ['x'])] [0, 5] = Except.ok [['a']] := by
  rw [(claim_C5_index_mapping [0, 5] [(['a'], ['x'])] (by decide)).1]
  rfl

/-- C5 counterexample.  With one chunk, index minus two does not name a
chunk, yet it is not silently dropped: it raises IndexError and the whole
call fails (while minus one, also outside zero to n minus one, silently
reads the last chunk instead of being dropped). -/
theorem claim_C5_counterexample :
    filter_chunks [-2] [(['a'], ['x'])] = Except.error () ∧
    filter_chunks [-1] [(['a'], ['x'])] = Except.ok [['a']] := ⟨rfl, rfl⟩

theorem dictGet?_dictSet_ne (d : Dict) (k v k' : PyStr) (h : k' ≠ k) :
    dictGet? (dictSet d k v) k' = dictGet? d k' := by
  induction d with
  | nil =>
    simp only [dictSet, dictGet?]
    rw [if_neg fun he => h he.symm]
  | cons kv d ih =>
    rcases kv with ⟨k1, v1⟩
    simp only [dictSet]
    by_cases h1 : k1 = k
    · rw [if_pos h1]
      simp only [dictGet?]
      rw [if_neg fun he => h he.symm, if_neg fun he => h (he.symm.trans h1)]
    · rw [if_neg h1]
      simp only [dictGet?]
      by_cases h2 : k1 = k'
      · rw [if_pos h2, if_pos h2]
      · rw [if_neg h2, if_neg h2, ih]

theorem dictKeys_dictSet (d : Dict) (k v : PyStr) :
    dictKeys (dictSet d k v) =
      if k ∈ dictKeys d then dictKeys d else dictKeys d ++ [k] := by
  induction d with
  | nil => simp [dictSet, dictKeys]
  | cons kv d ih =>
    rcases kv with ⟨k1, v1⟩
    simp only [dictSet]
    by_cases h1 : k1 = k
    · subst h1
      rw [if_pos rfl]
      simp [dictKeys]
    · rw [if_neg h1]
      simp only [dictKeys, List.map_cons] at ih ⊢
      rw [ih]
      by_cases h2 : k ∈ d.map Prod.fst
      · rw [if_pos h2, if_pos (List.mem_cons_of_mem _ h2)]
      · rw [if_neg h2, if_neg ?_]
        · simp
        · intro hc
          rcases List.mem_cons.mp hc with hc | hc
          · exact h1 hc.symm
          · exact h2 hc

theorem mem_dictKeys_dictSet {d : Dict} {k' : PyStr} (h : k' ∈ dictKeys d)
    (k v : PyStr) : k' ∈ dictKeys (dictSet d k v) := by
  rw [dictKeys_dictSet]
  split
  · exact h
  · exact List.mem_append_left _ h

theorem self_mem_dictKeys_dictSet (d : Dict) (k v : PyStr) :
    k ∈ dictKeys (dictSet d k v) := by
  rw [dictKeys_dictSet]
  split
  · next h => exact h
  · exact List.mem_append_right _ (List.mem_singleton.mpr rfl)

theorem StoreEvolves.refl (st : StoreState) : StoreEvolves st st [] :=
  ⟨fun _ h => h, fun _ h => h, fun _ _ => ⟨rfl, rfl⟩, fun _ hp => absurd hp (by simp),
    fun h => h⟩

theorem StoreEvolves.trans {st1 st2 st3 : StoreState}
    {ps1 ps2 : List (PyStr × PyStr)} (h12 : StoreEvolves st1 st2 ps1)
    (h23 : StoreEvolves st2 st3 ps2) : StoreEvolves st1 st3 (ps1 ++ ps2) := by
  obtain ⟨a12, b12, c12, d12, e12⟩ := h12
  obtain ⟨a23, b23, c23, d23, e23⟩ := h23
  refine ⟨fun k hk => a23 k (a12 k hk), fun k hk => b23 k (b12 k hk), ?_, ?_,
    fun h => e23 (e12 h)⟩
  · intro k hk
    rw [List.map_append] at hk
    have hk1 : k ∉ ps1.map Prod.fst := fun hc => hk (List.mem_append_left _ hc)
    have hk2 : k ∉ ps2.map Prod.fst := fun hc => hk (List.mem_append_right _ hc)
    exact ⟨(c23 k hk2).1.trans (c12 k hk1).1, (c23 k hk2).2.trans (c12 k hk1).2⟩
  · intro p hp
    rcases List.mem_append.mp hp with hp | hp
    · exact a23 p.1 (d12 p hp)
    · exact d23 p hp

theorem StoreEvolves.insert (st : StoreState) (cid text url : PyStr) :
    StoreEvolves st ⟨dictSet st.chunk_store cid text, dictSet st.chunk_url_map cid url⟩
      [(cid, text)] := by
  refine ⟨fun k hk => mem_dictKeys_dictSet hk cid text,
    fun k hk => mem_dictKeys_dictSet hk cid url, ?_, ?_, ?_⟩
  · intro k hk
    have hne : k ≠ cid := by simpa using hk
    exact ⟨dictGet?_dictSet_ne _ _ _ _ hne, dictGet?_dictSet_ne _ _ _ _ hne⟩
  · intro p hp
    rw [List.mem_singleton.mp hp]
    exact self_mem_dictKeys_dictSet st.chunk_store cid text
  · intro h
    rw [dictKeys_dictSet, dictKeys_dictSet, h]

theorem storeLoop_evolves (url : PyStr) :
    ∀ (chunks : List PyStr) (index : Nat) (st : StoreState),
      StoreEvolves st (storeLoop url chunks index st).1 (storeLoop url chunks index st).2 := by
  intro chunks
  induction chunks with
  | nil => intro index st; exact StoreEvolves.refl st
  | cons chunk_text rest ih =>
    intro index st
    have h1 := StoreEvolves.insert st (generate_chunk_id url index) chunk_text url
    have h2 := ih (index + 1)
      ⟨dictSet st.chunk_store (generate_chunk_id url index) chunk_text,
        dictSet st.chunk_url_map (generate_chunk_id url index) url⟩
    exact h1.trans h2

theorem chunk_and_store_evolves (tok : PyStr → List PyStr) :
    ∀ (results : List (PyStr × PyStr)) (st : StoreState),
      StoreEvolves st (chunk_and_store tok results st).1 (chunk_and_store tok results st).2 := by
  intro results
  induction results with
  | nil => intro st; exact StoreEvolves.refl st
  | cons r rest ih =>
    intro st
    rcases r with ⟨url, content⟩
    simp only [chunk_and_store]
    by_cases hb : pyStrip content = []
    · rw [if_pos hb]
      exact ih st
    · rw [if_neg hb]
      exact (storeLoop_evolves url (chunk_documents tok content) 0 st).trans
        (ih (storeLoop url (chunk_documents tok content) 0 st).1)

/-- C4 (amended).  Across any `process` call — whose only store mutation is
`_chunk_and_store` — the key sets of both stores only grow, and an entry
whose chunk id is not among the ids emitted by the call keeps its exact text
and url.  (The original claim asserted unconditional immutability; an id IS
re-emitted when the same url is processed again, since ids depend only on
the url and the chunk position, and the entry is then overwritten — see the
counterexample.) -/
theorem claim_C4_store_evolution (tok : PyStr → List PyStr)
    (search_results : List (PyStr × PyStr)) (st : StoreState) (k : PyStr) :
    (k ∈ dictKeys st.chunk_store →
      k ∈ dictKeys (chunk_and_store tok search_results st).1.chunk_store) ∧
    (k ∈ dictKeys st.chunk_url_map →
      k ∈ dictKeys (chunk_and_store tok search_results st).1.chunk_url_map) ∧
    (k ∉ ((chunk_and_store tok search_results st).2.map Prod.fst) →
      dictGet? (chunk_and_store tok search_results st).1.chunk_store k =
        dictGet? st.chunk_store k ∧
      dictGet? (chunk_and_store tok search_results st).1.chunk_url_map k =
        dictGet? st.chunk_url_map k) := by
  obtain ⟨a, b, c, _, _⟩ := chunk_and_store_evolves tok search_results st
  exact ⟨a k, b k, c k⟩

/-- Witness for C4 at a concrete input: a pre-existing entry under a key not
re-emitted by the call keeps its text and url. -/
theorem claim_C4_witness :
    dictGet? (chunk_and_store (fun s => [s]) [(['u'], ['b'])]
        ⟨[(['k'], ['a'])], [(['k'], ['w'])]⟩).1.chunk_store ['k'] =
      dictGet? ([(['k'], ['a'])] : Dict) ['k'] ∧
    dictGet? (chunk_and_store (fun s => [s]) [(['u'], ['b'])]
        ⟨[(['k'], ['a'])], [(['k'], ['w'])]⟩).1.chunk_url_map ['k'] =
      dictGet? ([(['k'], ['w'])] : Dict) ['k'] :=
  (claim_C4_store_evolution (fun s => [s]) [(['u'], ['b'])]
    ⟨[(['k'], ['a'])], [(['k'], ['w'])]⟩ ['k']).2.2 (by decide)

/-- C4 counterexample.  Processing the same url twice with different content
overwrites the stored chunk text: the id of chunk 0 of that url is the same
in both calls, and its stored text changes from a to b. -/
theorem claim_C4_counterexample :
    dictGet? (chunk_and_store (fun s => [s]) [(['u'], ['a'])] ⟨[], []⟩).1.chunk_store
        (generate_chunk_id ['u'] 0) = some ['a'] ∧
    dictGet? (chunk_and_store (fun s => [s]) [(['u'], ['b'])]
        (chunk_and_store (fun s => [s]) [(['u'], ['a'])] ⟨[], []⟩).1).1.chunk_store
        (generate_chunk_id ['u'] 0) = some ['b'] := by
  decide

/-- C8 (amended).  The chunking helper behaves exactly as if blank entries
were absent: `_chunk_and_store` on the blank-filtered batch equals
`_chunk_and_store` on the full batch — no chunk is emitted for a blank entry,
nothing is stored, nothing fails, and the remaining entries are processed
unchanged.  This covers the two chunk-based strategies, whose `process` routes
every entry through it.  (The original claim extended to every strategy; the
summarization strategy does not skip blank entries — it sends them to the
completion service in its prompt payload, see the counterexample.) -/
theorem claim_C8_blank_skip (tok : PyStr → List PyStr)
    (search_results : List (PyStr × PyStr)) (st : StoreState) :
    chunk_and_store tok (search_results.filter nonBlank) st =
      chunk_and_store tok search_results st := by
  induction search_results generalizing st with
  | nil => rfl
  | cons r rest ih =>
    rcases r with ⟨url, content⟩
    by_cases hb : pyStrip content = []
    · rw [List.filter_cons_of_neg (by simp [nonBlank, hb])]
      conv_rhs => rw [chunk_and_store]
      rw [if_pos hb]
      exact ih st
    · rw [List.filter_cons_of_pos (by simp [nonBlank, hb])]
      simp only [chunk_and_store]
      rw [if_neg hb, if_neg hb, ih]

/-- C8 counterexample.  A whitespace-only entry is blank, yet the
summarization strategy does not skip it: the prompt payload built by
`_summarize_pages` keeps the entry, unlike the blank-filtered payload. -/
theorem claim_C8_counterexample :
    nonBlank (['u'], [' ']) = false ∧
    pagesPayload [(['u'], [' '])] = [(['u'], [' '])] ∧
    pagesPayload (List.filter nonBlank [(['u'], [' '])]) = [] := by
  decide

/-- C7.  The summarization merge has the empty summary as identity on both
sides, without calling the completion service (flag false); in particular a
`process` call with an empty batch leaves the knowledge base unchanged and
never invokes the merge completion call. -/
theorem claim_C7_merge_identity (oracle aux : PyStr) (old_summary new_summary : PyStr) :
    merge_summaries oracle [] new_summary = (new_summary, false) ∧
    merge_summaries oracle old_summary [] = (old_summary, false) ∧
    processSum aux oracle [] old_summary = (old_summary, false) := by
  refine ⟨rfl, ?_, ?_⟩
  · unfold merge_summaries
    by_cases h : old_summary = []
    · rw [if_pos h, h]
    · rw [if_neg h, if_pos rfl]
  · unfold processSum summarize_pages
    by_cases h : old_summary = []
    · rw [if_pos rfl, if_neg (by simp [h]), h]
    · rw [if_pos rfl, if_pos h]
      unfold merge_summaries
      rw [if_neg h, if_pos rfl]

theorem extractLoop_mem (urlMap : Dict) (pairs : List (PyStr × PyStr)) :
    ∀ (facts_list : List FactData) (facts : List FactObject),
      extractLoop urlMap pairs facts_list = Except.ok facts →
      ∀ f ∈ facts, ∀ id ∈ f.chunk_ids, ∃ p ∈ pairs, id = p.1 := by
  intro facts_list
  induction facts_list with
  | nil =>
    intro facts h f hf
    simp only [extractLoop] at h
    cases h
    simp at hf
  | cons fd rest ih =>
    intro facts h f hf id hid
    simp only [extractLoop] at h
    split at h
    · exact ih facts h f hf id hid
    · rcases hm : mapIndices pairs fd.chunk_indices with e | cids
      · rw [hm] at h
        exact Except.noConfusion h
      · rw [hm] at h
        rcases cids with _ | ⟨c0, crest⟩
        · exact ih facts h f hf id hid
        · rcases hrec : extractLoop urlMap pairs rest with e | fs0
          · rw [hrec] at h
            simp [Except.map] at h
          · rw [hrec] at h
            simp only [Except.map] at h
            cases h
            rcases List.mem_cons.mp hf with hf0 | hf1
            · subst hf0
              exact mapIndices_mem pairs fd.chunk_indices (c0 :: crest) hm id hid
            · exact ih fs0 hrec f hf1 id hid

theorem extract_facts_mem (urlMap : Dict) (pairs : List (PyStr × PyStr))
    (facts_list : List FactData) (facts : List FactObject)
    (h : extract_facts urlMap pairs facts_list = Except.ok facts) :
    ∀ f ∈ facts, ∀ id ∈ f.chunk_ids, ∃ p ∈ pairs, id = p.1 := by
  unfold extract_facts at h
  split at h
  · cases h
    intro f hf
    simp at hf
  · exact extractLoop_mem urlMap pairs facts_list facts h

/-- C10.  Both chunk-based strategies start in an invariant state and every
`process` call — raising or not — preserves it: the chunk store and the url
map always have the same key list, and every chunk id held in the knowledge
base (directly for the filtering strategy, inside each fact for the
fact-centric one) is a key of the chunk store, hence resolves to stored text
and a source url. -/
theorem claim_C10_kb_resolves :
    InvCF ⟨[], [], []⟩ ∧ InvFC ⟨[], [], []⟩ ∧
    (∀ tok relevant_indices search_results st, InvCF st →
      InvCF (processCF tok relevant_indices search_results st).1) ∧
    (∀ tok facts_list search_results st, InvFC st →
      InvFC (processFC tok facts_list search_results st).1) := by
  refine ⟨⟨rfl, by simp⟩, ⟨rfl, by simp⟩, ?_, ?_⟩
  · intro tok idxs results st hInv
    obtain ⟨hkeys, hkb⟩ := hInv
    obtain ⟨ha, _, _, hd, he⟩ :=
      chunk_and_store_evolves tok results ⟨st.chunk_store, st.chunk_url_map⟩
    unfold processCF
    rcases hfc : filter_chunks idxs
        (chunk_and_store tok results ⟨st.chunk_store, st.chunk_url_map⟩).2 with err | ids
    · simp only [applyCF]
      exact ⟨he hkeys, fun id hid => ha id (hkb id hid)⟩
    · simp only [applyCF]
      refine ⟨he hkeys, ?_⟩
      intro id hid
      rcases List.mem_append.mp hid with hold | hnew
      · exact ha id (hkb id hold)
      · obtain ⟨p, hp, hpid⟩ := filter_chunks_mem idxs _ ids hfc id hnew
        exact hpid ▸ hd p hp
  · intro tok facts_list results st hInv
    obtain ⟨hkeys, hkb⟩ := hInv
    obtain ⟨ha, _, _, hd, he⟩ :=
      chunk_and_store_evolves tok results ⟨st.chunk_store, st.chunk_url_map⟩
    unfold processFC
    rcases hfc : extract_facts
        (chunk_and_store tok results ⟨st.chunk_store, st.chunk_url_map⟩).1.chunk_url_map
        (chunk_and_store tok results ⟨st.chunk_store, st.chunk_url_map⟩).2
        facts_list with err | new_facts
    · simp only [applyFC]
      exact ⟨he hkeys, fun f hf id hid => ha id (hkb f hf id hid)⟩
    · simp only [applyFC]
      refine ⟨he hkeys, ?_⟩
      intro f hf id hid
      rcases List.mem_append.mp hf with hold | hnew
      · exact ha id (hkb f hold id hid)
      · obtain ⟨p, hp, hpid⟩ := extract_facts_mem _ _ facts_list new_facts hfc f hnew id hid
        exact hpid ▸ hd p hp

/-- Witness for C10 at a concrete call: one process call of the filtering
strategy from the empty state preserves the invariant. -/
theorem claim_C10_witness :
    InvCF (processCF (fun s => [s]) [0] [(['u'], ['a'])] ⟨[], [], []⟩).1 :=
  claim_C10_kb_resolves.2.2.1 (fun s => [s]) [0] [(['u'], ['a'])] ⟨[], [], []⟩
    ⟨rfl, by simp⟩

end ContextCompress
